import Mathlib

/-!
Shallow embedding of `sum_numbers.py`, a Python 3 command-line program that
reads two command-line arguments, converts each with the builtin `float`,
prints their IEEE-754 double-precision sum with Python's default float
rendering, and exits with status 0; argument-count errors and conversion
errors print a fixed message and exit with status 1.

The embedding models:
  * IEEE-754 binary64 values (`Double`) as sign/mantissa/exponent triples
    over `Nat`/`Int`, with rational values, round-to-nearest-even rounding
    (`roundDouble`) and addition (`Double.add`);
  * CPython's string-to-float conversion (`pyFloat`): ASCII whitespace
    stripping, underscores between digits, optional sign, `inf`/`infinity`/
    `nan` spellings (case-insensitive), and decimal literals with optional
    fraction and exponent, rounded correctly with overflow to infinity
    (CPython's `float` of a string does not raise on overflow);
  * CPython's `repr`/`str` of a float (`reprFloat`): the shortest decimal
    string of at most 17 significant digits that parses back to the same
    double, formatted in fixed or scientific notation by CPython's rules,
    with an exact-decimal fallback;
  * the program `main` over its argument vector, returning the list of
    printed lines and the exit status.

Non-ASCII digits and non-ASCII whitespace (which CPython also accepts) are
out of scope; all claims concern ASCII arguments.
-/

/-- Exponent of the least significant bit of subnormal doubles: `2^(-1074)`
is the smallest positive double. -/
def emin : Int := -1074

/-- Largest exponent of the least significant mantissa bit of a finite
double: `1023 - 52`. -/
def emaxLsb : Int := 971

/-- An IEEE-754 binary64 datum: NaN (all NaNs identified), signed infinity,
or a finite value `(-1)^neg * m * 2^e`.  Signed zero is `finite b 0 emin`. -/
inductive Double : Type where
  | nan : Double
  | inf (neg : Bool) : Double
  | finite (neg : Bool) (m : Nat) (e : Int) : Double
deriving DecidableEq

/-- The rational value of a finite-double triple. -/
def valF (neg : Bool) (m : Nat) (e : Int) : ℚ :=
  (if neg then -1 else 1) * (m : ℚ) * (2 : ℚ) ^ e

/-- Well-formedness of a `Double`: the finite form is canonical — mantissa
below `2^53`, exponent in range, and either subnormal (`e = emin`) or
normalized (`2^52 ≤ m`). -/
def Double.wf : Double → Prop
  | .nan => True
  | .inf _ => True
  | .finite _ m e => m < 2 ^ 53 ∧ emin ≤ e ∧ e ≤ emaxLsb ∧ (e = emin ∨ 2 ^ 52 ≤ m)

instance : DecidablePred Double.wf := by
  intro d; cases d <;> simp [Double.wf] <;> infer_instance

/-- Finiteness test on doubles. -/
def Double.isFinite : Double → Bool
  | .finite _ _ _ => true
  | _ => false

/-- Fuel-driven base-2 logarithm on `Nat` (structural recursion on fuel, so
that it reduces inside the kernel). -/
def log2fuel : Nat → Nat → Nat
  | 0, _ => 0
  | f + 1, n => if n < 2 then 0 else log2fuel f (n / 2) + 1

/-- `nlog2 n` is `⌊log₂ n⌋` for `n ≠ 0`. -/
def nlog2 (n : Nat) : Nat := log2fuel n n

/-- Fuel-driven base-10 logarithm on `Nat`. -/
def log10fuel : Nat → Nat → Nat
  | 0, _ => 0
  | f + 1, n => if n < 10 then 0 else log10fuel f (n / 10) + 1

/-- `nlog10 n` is `⌊log₁₀ n⌋` for `n ≠ 0`. -/
def nlog10 (n : Nat) : Nat := log10fuel n n

/-- `⌊log₂ q⌋` for a positive rational `q`, as an `Int`: the unique `z`
with `2^z ≤ q < 2^(z+1)`. -/
def ilog2 (q : ℚ) : Int :=
  let a := q.num.toNat
  let b := q.den
  let L := nlog2 b + 1
  (nlog2 (a * 2 ^ L / b) : Int) - L

/-- `⌊log₁₀ q⌋` for a positive rational `q`, as an `Int`. -/
def ilog10 (q : ℚ) : Int :=
  let a := q.num.toNat
  let b := q.den
  let L := nlog2 b + 1
  (nlog10 (a * 10 ^ L / b) : Int) - L

/-- Round a rational to the nearest integer, ties to even. -/
def roundNEInt (q : ℚ) : Int :=
  let f := ⌊q⌋
  let r := q - (f : ℚ)
  if r < 1 / 2 then f
  else if 1 / 2 < r then f + 1
  else if f % 2 = 0 then f else f + 1

/-- Round a rational to the nearest IEEE-754 binary64 value (ties to even),
with overflow to infinity.  A zero result is `+0`; negative inputs yield the
negative finite form. -/
def roundDouble (q : ℚ) : Double :=
  if q = 0 then .finite false 0 emin
  else
    let neg := decide (q < 0)
    let aq := |q|
    let e0 : Int := max emin (ilog2 aq - 52)
    let n0 := (roundNEInt (aq / (2 : ℚ) ^ e0)).toNat
    let n := if n0 = 2 ^ 53 then 2 ^ 52 else n0
    let e1 := if n0 = 2 ^ 53 then e0 + 1 else e0
    if emaxLsb < e1 then .inf neg else .finite neg n e1

/-- IEEE-754 binary64 addition (round to nearest, ties to even).  The sign
of an exactly-zero sum of finite operands is negative only when both
operands are negative zeros, as IEEE-754 prescribes for this rounding
direction. -/
def Double.add : Double → Double → Double
  | .nan, _ => .nan
  | _, .nan => .nan
  | .inf b1, .inf b2 => if b1 = b2 then .inf b1 else .nan
  | .inf b, .finite _ _ _ => .inf b
  | .finite _ _ _, .inf b => .inf b
  | .finite n1 m1 e1, .finite n2 m2 e2 =>
    let s := valF n1 m1 e1 + valF n2 m2 e2
    if s = 0 then .finite (n1 && n2) 0 emin else roundDouble s

/-- The character for a decimal digit value: `digitChar 3 = '3'`. -/
def digitChar (d : Nat) : Char := Char.ofNat (48 + d)

/-- The decimal digit value of a character: `charVal '3' = 3`. -/
def charVal (c : Char) : Nat := c.toNat - 48

/-- ASCII whitespace as recognized by CPython's `Py_ISSPACE`, which the
`float` constructor strips from both ends of its argument. -/
def isPyWS (c : Char) : Bool :=
  c = ' ' || c = '\t' || c = '\n' || c = '\x0d' || c = '\x0b' || c = '\x0c'

/-- Little-endian decimal digits of `n`, with explicit fuel (structural
recursion, so it reduces in the kernel). -/
def natDigitsAux : Nat → Nat → List Nat
  | 0, _ => []
  | f + 1, n => if n = 0 then [] else n % 10 :: natDigitsAux f (n / 10)

/-- The decimal digit characters of `n`, most significant first; empty for
`n = 0`. -/
def natChars (n : Nat) : List Char :=
  ((natDigitsAux n n).map digitChar).reverse

/-- Split a character list into its longest prefix of ASCII decimal digits
and the remainder. -/
def takeDigits : List Char → List Char × List Char
  | [] => ([], [])
  | c :: cs =>
    if c.isDigit then
      let p := takeDigits cs
      (c :: p.1, p.2)
    else ([], c :: cs)

/-- CPython's underscore normalization for numeric literals passed to
`float`: every underscore must be directly preceded and followed by a
digit; valid underscores are removed, anything else is a `ValueError`
(modelled as `none`). -/
def remU : List Char → Option (List Char)
  | [] => some []
  | [c] => if c = '_' then none else some [c]
  | c :: c2 :: rest =>
    if c = '_' then none
    else if c2 = '_' then
      if c.isDigit then
        match rest with
        | d :: _ => if d.isDigit then (remU rest).map (c :: ·) else none
        | [] => none
      else none
    else (remU (c2 :: rest)).map (c :: ·)

/-- Strip leading and trailing CPython whitespace from a character list. -/
def stripWS (cs : List Char) : List Char :=
  ((cs.dropWhile isPyWS).reverse.dropWhile isPyWS).reverse

/-- The natural number denoted by a most-significant-first digit-character
list. -/
def digitsToNat (cs : List Char) : Nat :=
  cs.foldl (fun a c => 10 * a + charVal c) 0

/-- The exact rational value of a decimal literal with integer digits `I`,
fraction digits `F` and decimal exponent `ex`. -/
def decValue (I F : List Char) (ex : Int) : ℚ :=
  (digitsToNat (I ++ F) : ℚ) * (10 : ℚ) ^ (ex - (F.length : Int))

/-- Consume one optional leading sign, returning whether it was `'-'` and
the remainder. -/
def splitSign (cs : List Char) : Bool × List Char :=
  match cs with
  | [] => (false, [])
  | c :: t => if c = '-' then (true, t) else if c = '+' then (false, t) else (false, cs)

/-- Parse the body of a decimal float literal (sign already removed, no
whitespace, no underscores): `digits [. digits] [(e|E) [sign] digits]`,
with at least one digit in the mantissa; the whole list must be consumed.
Returns the exact (non-negative) rational value. -/
def parseNumber (cs : List Char) : Option ℚ :=
  let p1 := takeDigits cs
  let p2 := if p1.2.head? = some '.' then takeDigits p1.2.tail else ([], p1.2)
  if p1.1 = [] ∧ p2.1 = [] then none
  else
    match p2.2 with
    | [] => some (decValue p1.1 p2.1 0)
    | c :: t =>
      if c = 'e' ∨ c = 'E' then
        let sp := splitSign t
        let p3 := takeDigits sp.2
        if p3.1 = [] ∨ p3.2 ≠ [] then none
        else
          some (decValue p1.1 p2.1
            (if sp.1 then -(digitsToNat p3.1 : Int) else (digitsToNat p3.1 : Int)))
      else none

/-- Negate a double (flips the sign bit; NaN is unchanged). -/
def negD : Double → Double
  | .nan => .nan
  | .inf b => .inf (!b)
  | .finite b m e => .finite (!b) m e

/-- Apply a parsed sign to a non-negative parsed double. -/
def applySign (neg : Bool) (d : Double) : Double :=
  if neg then negD d else d

/-- CPython's `float` applied to a string: strip ASCII whitespace, validate
and remove underscores, take an optional sign, then either a decimal
literal (correctly rounded, overflow to infinity — string conversion does
not raise `OverflowError`) or one of the case-insensitive special
spellings `inf`, `infinity`, `nan`.  A `ValueError` is `none`. -/
def pyFloat (s : String) : Option Double :=
  match remU (stripWS s.data) with
  | none => none
  | some cs1 =>
    let sp := splitSign cs1
    match parseNumber sp.2 with
    | some q => some (applySign sp.1 (roundDouble q))
    | none =>
      let low := sp.2.map Char.toLower
      if low = "inf".data ∨ low = "infinity".data then some (.inf sp.1)
      else if low = "nan".data then some .nan
      else none

/-- Fixed-notation layout of CPython's float repr: digit characters `ds`
with decimal exponent `d10` (the power of ten of the leading digit),
used when `-4 ≤ d10 ≤ 15`.  Integral values get a trailing `.0`. -/
def fixedNotation (ds : List Char) (d10 : Int) : List Char :=
  if 0 ≤ d10 then
    let k := d10.toNat + 1
    if ds.length ≤ k then ds ++ List.replicate (k - ds.length) '0' ++ ['.', '0']
    else ds.take k ++ '.' :: ds.drop k
  else '0' :: '.' :: List.replicate ((-d10).toNat - 1) '0' ++ ds

/-- Scientific-notation layout of CPython's float repr: leading digit,
optional fraction, and a signed exponent of at least two digits. -/
def sciNotation (ds : List Char) (d10 : Int) : List Char :=
  let expDigits := natChars (-d10).toNat ++ natChars d10.toNat
  let expPart := if expDigits.length < 2 then '0' :: expDigits else expDigits
  ds.take 1 ++ (match ds.drop 1 with | [] => [] | t => '.' :: t)
    ++ 'e' :: (if d10 < 0 then '-' else '+') :: expPart

/-- The decimal rendering of the positive value `m * 2^e` correctly rounded
to `p` significant digits, laid out by CPython's repr rules (fixed notation
for decimal exponents in `[-4, 15]`, scientific otherwise). -/
def fmtSig (m : Nat) (e : Int) (p : Nat) : List Char :=
  let aq : ℚ := (m : ℚ) * (2 : ℚ) ^ e
  let d10 := ilog10 aq
  let scale : Int := d10 - (p - 1 : Nat)
  let D0 := (roundNEInt (aq / (10 : ℚ) ^ scale)).toNat
  let D := if D0 = 10 ^ p then 10 ^ (p - 1) else D0
  let d10' := if D0 = 10 ^ p then d10 + 1 else d10
  let ds := natChars D
  if -4 ≤ d10' ∧ d10' ≤ 15 then fixedNotation ds d10' else sciNotation ds d10'

/-- Exact-decimal rendering of the nonzero finite double `m * 2^e`: an
integer literal for `e ≥ 0`, and `M e-k` with `M = m * 5^k`, `k = -e`
otherwise.  Denotes exactly `m * 2^e`, so it always parses back to it. -/
def exactDec (m : Nat) (e : Int) : List Char :=
  if 0 ≤ e then natChars (m * 2 ^ e.toNat)
  else natChars (m * 5 ^ (-e).toNat) ++ 'e' :: '-' :: natChars (-e).toNat

/-- CPython's `repr` (= `str`) of a float, as printed by `print`: for
finite nonzero values, the shortest decimal form of at most 17 significant
digits whose correctly rounded value parses back to the same double,
formatted by CPython's fixed/scientific rules; special forms for NaN,
infinities and signed zeros.  The exact-decimal fallback keeps the
definition total without asserting that 17 digits always suffice. -/
def reprFloat : Double → String
  | .nan => "nan"
  | .inf b => if b then "-inf" else "inf"
  | .finite neg m e =>
    if m = 0 then (if neg then "-0.0" else "0.0")
    else
      let sgn : List Char := if neg then ['-'] else []
      let cands := (List.range 17).map fun i => sgn ++ fmtSig m e (i + 1)
      match cands.find? (fun s => pyFloat (String.mk s) == some (.finite neg m e)) with
      | some s => String.mk s
      | none => String.mk (sgn ++ exactDec m e)

/-- The usage message printed by `sum_numbers.py` on a wrong argument
count (a fixed literal in the source). -/
def usageMsg : String := "Usage: python sum_numbers.py <number1> <number2>"

/-- The error message printed by `sum_numbers.py` when a conversion
raises `ValueError`. -/
def errMsg : String := "Error: Both arguments must be numbers."

/-- The observable outcome of one run: the printed lines (each `print`
call emits one line) and the process exit status. -/
structure RunResult where
  stdout : List String
  exitCode : Nat
deriving DecidableEq

/-- The `main` function of `sum_numbers.py` over its full argument vector
`sys.argv` (program name first): if `len(sys.argv) != 3` print the usage
message and exit 1; otherwise convert both arguments with `float`, and on
`ValueError` print the error message and exit 1; otherwise print the sum
and exit 0.  (Python evaluates `float(sys.argv[1])` first, but since
conversion has no side effects, failure of either conversion yields the
same single error line.) -/
def SumNumbers.main (argv : List String) : RunResult :=
  match argv with
  | [_, a1, a2] =>
    match pyFloat a1, pyFloat a2 with
    | some num1, some num2 => ⟨[reprFloat (num1.add num2)], 0⟩
    | _, _ => ⟨[errMsg], 1⟩
  | _ => ⟨[usageMsg], 1⟩

set_option maxRecDepth 100000

/-- Little-endian value of a digit list. -/
def digitsVal : List Nat → Nat
  | [] => 0
  | d :: t => d + 10 * digitsVal t

/-- The characters that can occur in a rendered float. -/
def okChar (c : Char) : Prop :=
  c.isDigit = true ∨ c = '.' ∨ c = 'e' ∨ c = '+' ∨ c = '-' ∨ c = 'n' ∨
    c = 'i' ∨ c = 'f' ∨ c = 'a'

instance : DecidablePred okChar := by
  intro c; unfold okChar; infer_instance

/-! ### Spec-side definitions, for comparison with the code -/

/-- Modelled from the spec's words: "standard lexical float-parsing rules
(optional sign, digits, optional decimal point, optional exponent)" —
`sign? digits+ ('.' digits*)? ((e|E) sign? digits+)?`, with no surrounding
whitespace, no underscores between digits, and no `inf`/`nan` spellings.
This is the second definition of a refinement comparison: the code-side
acceptance is `pyFloat`. -/
def specLexFloat (s : String) : Bool :=
  let cs := (splitSign s.data).2
  let p1 := takeDigits cs
  if p1.1 = [] then false
  else
    let r2 := if p1.2.head? = some '.' then (takeDigits p1.2.tail).2 else p1.2
    match r2 with
    | [] => true
    | c :: t =>
      if c = 'e' ∨ c = 'E' then
        let p3 := takeDigits (splitSign t).2
        decide (p3.1 ≠ [] ∧ p3.2 = [])
      else false

/-- Modelled from the spec's words: the usage message
`Usage: <program> <number1> <number2>`, with `<program>` standing for the
program's own invocation name.  The code-side message is the fixed literal
`usageMsg`. -/
def specUsage (prog : String) : String :=
  "Usage: " ++ prog ++ " <number1> <number2>"

/-! ### Properties of the logarithm helpers -/

theorem log2fuel_spec : ∀ f n, 0 < n → n ≤ f →
    2 ^ log2fuel f n ≤ n ∧ n < 2 ^ (log2fuel f n + 1) := by
  intro f
  induction f with
  | zero => intro n h1 h2; omega
  | succ f ih =>
    intro n h1 h2
    by_cases h : n < 2
    · simp only [log2fuel, if_pos h]
      omega
    · have h2' : 2 ≤ n := by omega
      have hd : 0 < n / 2 := Nat.div_pos h2' (by omega)
      have hf : n / 2 ≤ f := by
        have := Nat.div_lt_self h1 (by omega : 1 < 2)
        omega
      obtain ⟨l, u⟩ := ih (n / 2) hd hf
      simp only [log2fuel, if_neg h]
      have e1 : 2 ^ (log2fuel f (n / 2) + 1) = 2 ^ log2fuel f (n / 2) * 2 := pow_succ 2 _
      have e2 : 2 ^ (log2fuel f (n / 2) + 1 + 1) = 2 ^ (log2fuel f (n / 2) + 1) * 2 :=
        pow_succ 2 _
      omega

theorem nlog2_spec (n : Nat) (h : 0 < n) :
    2 ^ nlog2 n ≤ n ∧ n < 2 ^ (nlog2 n + 1) :=
  log2fuel_spec n n h le_rfl

theorem nlog2_eq_of {n z : Nat} (h1 : 2 ^ z ≤ n) (h2 : n < 2 ^ (z + 1)) :
    nlog2 n = z := by
  have h0 : 0 < n := lt_of_lt_of_le (Nat.pos_pow_of_pos z (by omega)) h1
  obtain ⟨l, u⟩ := nlog2_spec n h0
  rcases Nat.lt_trichotomy (nlog2 n) z with hlt | heq | hgt
  · have : nlog2 n + 1 ≤ z := hlt
    have := Nat.pow_le_pow_right (by omega : 1 ≤ 2) this
    omega
  · exact heq
  · have : z + 1 ≤ nlog2 n := hgt
    have := Nat.pow_le_pow_right (by omega : 1 ≤ 2) this
    omega

/-! ### Properties of `ilog2` on positive rationals -/

theorem ilog2_spec (q : ℚ) (hq : 0 < q) :
    (2 : ℚ) ^ ilog2 q ≤ q ∧ q < (2 : ℚ) ^ (ilog2 q + 1) := by
  have hnum : 0 < q.num := Rat.num_pos.mpr hq
  have hb : 0 < q.den := q.pos
  have ha' : (q.num.toNat : Int) = q.num := Int.toNat_of_nonneg hnum.le
  have hapos : 0 < q.num.toNat := by omega
  obtain ⟨a, b, L, t, ha, hbdef, hL, ht⟩ :
      ∃ a b L t, a = q.num.toNat ∧ b = q.den ∧ L = nlog2 b + 1 ∧ t = a * 2 ^ L / b :=
    ⟨_, _, _, _, rfl, rfl, rfl, rfl⟩
  have hilog : ilog2 q = (nlog2 t : Int) - L := by
    rw [ilog2]
    rw [← hbdef, ← hL, ← ha, ← ht]
  have hbpos : 0 < b := hbdef ▸ hb
  have haZ : (a : Int) = q.num := ha ▸ ha'
  have hapos' : 0 < a := ha ▸ hapos
  have hbL : b < 2 ^ L := hL ▸ (nlog2_spec b hbpos).2
  have htb : b ≤ a * 2 ^ L := by
    calc b ≤ 2 ^ L := hbL.le
    _ ≤ a * 2 ^ L := Nat.le_mul_of_pos_left _ hapos'
  have htpos : 0 < t := ht ▸ Nat.div_pos htb hbpos
  obtain ⟨hz1, hz2⟩ := nlog2_spec t htpos
  -- `q = a / b` as rationals
  have hbQ : (0 : ℚ) < (b : ℚ) := by exact_mod_cast hbpos
  have hq_eq : q = (a : ℚ) / (b : ℚ) := by
    have h0 := Rat.num_div_den q
    rw [← h0, hbdef]
    congr 1
    exact_mod_cast haZ.symm
  -- floor-division bounds, lifted to `ℚ`
  have f1 : t * b ≤ a * 2 ^ L := by
    rw [ht]; exact Nat.div_mul_le_self _ _
  have f2 : a * 2 ^ L < (t + 1) * b := by
    rw [ht]
    have hmod := Nat.div_add_mod (a * 2 ^ L) b
    have hlt := Nat.mod_lt (a * 2 ^ L) hbpos
    have hexp : (a * 2 ^ L / b + 1) * b = b * (a * 2 ^ L / b) + b := by ring
    omega
  have hdiv1 : (t : ℚ) ≤ ((a * 2 ^ L : ℕ) : ℚ) / b := by
    rw [le_div_iff₀ hbQ]
    exact_mod_cast f1
  have hdiv2 : ((a * 2 ^ L : ℕ) : ℚ) / b < (t : ℚ) + 1 := by
    rw [div_lt_iff₀ hbQ]
    exact_mod_cast f2
  have hX : ((a * 2 ^ L : ℕ) : ℚ) / b = q * 2 ^ L := by
    rw [hq_eq]
    push_cast
    field_simp
  rw [hX] at hdiv1 hdiv2
  -- combine with the `nlog2` bounds on `t`
  have hl : (2 : ℚ) ^ nlog2 t ≤ q * 2 ^ L := by
    calc (2 : ℚ) ^ nlog2 t ≤ (t : ℚ) := by exact_mod_cast hz1
    _ ≤ q * 2 ^ L := hdiv1
  have hu : q * 2 ^ L < (2 : ℚ) ^ (nlog2 t + 1) := by
    calc q * 2 ^ L < (t : ℚ) + 1 := hdiv2
    _ ≤ (2 : ℚ) ^ (nlog2 t + 1) := by exact_mod_cast hz2
  have h2L : (0 : ℚ) < (2 : ℚ) ^ (L : ℕ) := by positivity
  constructor
  · rw [hilog, zpow_sub₀ (by norm_num : (2 : ℚ) ≠ 0)]
    rw [div_le_iff₀ (by rw [zpow_natCast]; exact h2L)]
    rw [zpow_natCast, zpow_natCast]
    exact hl
  · rw [hilog]
    have harith : (nlog2 t : Int) - L + 1 = ((nlog2 t + 1 : ℕ) : Int) - (L : Int) := by
      push_cast; ring
    rw [harith, zpow_sub₀ (by norm_num : (2 : ℚ) ≠ 0)]
    rw [lt_div_iff₀ (by rw [zpow_natCast]; exact h2L)]
    rw [zpow_natCast, zpow_natCast]
    exact hu

theorem ilog2_unique (q : ℚ) (z : Int) (hq : 0 < q)
    (h1 : (2 : ℚ) ^ z ≤ q) (h2 : q < (2 : ℚ) ^ (z + 1)) : ilog2 q = z := by
  obtain ⟨l, u⟩ := ilog2_spec q hq
  rcases lt_trichotomy (ilog2 q) z with hlt | heq | hgt
  · have hle : ilog2 q + 1 ≤ z := hlt
    have : (2 : ℚ) ^ (ilog2 q + 1) ≤ (2 : ℚ) ^ z :=
      zpow_le_zpow_right₀ (by norm_num) hle
    linarith
  · exact heq
  · have hle : z + 1 ≤ ilog2 q := hgt
    have : (2 : ℚ) ^ (z + 1) ≤ (2 : ℚ) ^ ilog2 q :=
      zpow_le_zpow_right₀ (by norm_num) hle
    linarith

/-! ### Properties of `roundNEInt` -/

theorem floor_le_roundNEInt (q : ℚ) : ⌊q⌋ ≤ roundNEInt q := by
  unfold roundNEInt
  dsimp only
  split_ifs <;> omega

theorem roundNEInt_le_floor_add_one (q : ℚ) : roundNEInt q ≤ ⌊q⌋ + 1 := by
  unfold roundNEInt
  dsimp only
  split_ifs <;> omega

theorem roundNEInt_intCast (n : Int) : roundNEInt (n : ℚ) = n := by
  unfold roundNEInt
  rw [Int.floor_intCast]
  norm_num

/-! ### Rounding a representable value gives back its canonical form -/

theorem ilog2_mul_pow (m : Nat) (e : Int) (hm : 0 < m) :
    ilog2 ((m : ℚ) * (2 : ℚ) ^ e) = (nlog2 m : Int) + e := by
  obtain ⟨hl, hu⟩ := nlog2_spec m hm
  have h2e : (0 : ℚ) < (2 : ℚ) ^ e := zpow_pos (by norm_num) e
  apply ilog2_unique
  · positivity
  · rw [zpow_add₀ (by norm_num : (2 : ℚ) ≠ 0)]
    have : (2 : ℚ) ^ (nlog2 m : Int) ≤ (m : ℚ) := by
      rw [zpow_natCast]; exact_mod_cast hl
    exact mul_le_mul_of_nonneg_right this h2e.le
  · rw [add_right_comm, zpow_add₀ (by norm_num : (2 : ℚ) ≠ 0)]
    have : (m : ℚ) < (2 : ℚ) ^ ((nlog2 m : Int) + 1) := by
      rw [← Nat.cast_one, ← Nat.cast_add, zpow_natCast]
      exact_mod_cast hu
    exact mul_lt_mul_of_pos_right this h2e

theorem nlog2_of_normalized {m : Nat} (h1 : 2 ^ 52 ≤ m) (h2 : m < 2 ^ 53) :
    nlog2 m = 52 :=
  nlog2_eq_of h1 h2

theorem roundDouble_valF (m : Nat) (e : Int) (hm : m ≠ 0) (hlt : m < 2 ^ 53)
    (hemin : emin ≤ e) (hemax : e ≤ emaxLsb) (hnorm : e = emin ∨ 2 ^ 52 ≤ m) :
    roundDouble ((m : ℚ) * (2 : ℚ) ^ e) = .finite false m e := by
  have hmpos : 0 < m := Nat.pos_of_ne_zero hm
  have h2e : (0 : ℚ) < (2 : ℚ) ^ e := zpow_pos (by norm_num) e
  have hqpos : (0 : ℚ) < (m : ℚ) * (2 : ℚ) ^ e := by positivity
  have hqne : (m : ℚ) * (2 : ℚ) ^ e ≠ 0 := hqpos.ne'
  have habs : |(m : ℚ) * (2 : ℚ) ^ e| = (m : ℚ) * (2 : ℚ) ^ e := abs_of_pos hqpos
  have hneg : decide ((m : ℚ) * (2 : ℚ) ^ e < 0) = false := by
    simp [not_lt.mpr hqpos.le]
  -- the chosen exponent is `e` itself
  have hilog : ilog2 |(m : ℚ) * (2 : ℚ) ^ e| = (nlog2 m : Int) + e := by
    rw [habs]; exact ilog2_mul_pow m e hmpos
  have hbound : nlog2 m ≤ 52 := by
    obtain ⟨hl, hu⟩ := nlog2_spec m hmpos
    by_contra hcon
    have h53 : 53 ≤ nlog2 m := by omega
    have : 2 ^ 53 ≤ 2 ^ nlog2 m := Nat.pow_le_pow_right (by omega) h53
    omega
  have he0 : max emin (ilog2 |(m : ℚ) * (2 : ℚ) ^ e| - 52) = e := by
    rw [hilog]
    rcases hnorm with hsub | hnl
    · subst hsub
      have : (nlog2 m : Int) + emin - 52 ≤ emin := by omega
      omega
    · have h52 : nlog2 m = 52 := nlog2_of_normalized hnl hlt
      rw [h52]
      omega
  -- the scaled value is exactly `m`
  have hscale : |(m : ℚ) * (2 : ℚ) ^ e| / (2 : ℚ) ^ e = (m : ℚ) := by
    rw [habs, mul_div_assoc, div_self h2e.ne', mul_one]
  have hround : roundNEInt (|(m : ℚ) * (2 : ℚ) ^ e| / (2 : ℚ) ^ e) = (m : Int) := by
    rw [hscale]
    have : ((m : Int) : ℚ) = (m : ℚ) := by push_cast; ring
    rw [← this, roundNEInt_intCast]
  have hn0 : ((roundNEInt (|(m : ℚ) * (2 : ℚ) ^ e| / (2 : ℚ) ^ (max emin (ilog2 |(m : ℚ) * (2 : ℚ) ^ e| - 52)))).toNat) = m := by
    rw [he0, hround]
    exact Int.toNat_natCast m
  -- assemble
  rw [roundDouble, if_neg hqne]
  dsimp only
  rw [he0]
  have hn0' : (roundNEInt (|(m : ℚ) * (2 : ℚ) ^ e| / (2 : ℚ) ^ e)).toNat = m := by
    rw [hround]; exact Int.toNat_natCast m
  rw [hn0', hneg]
  have hne53 : m ≠ 2 ^ 53 := by omega
  simp only [if_neg hne53]
  rw [if_neg (not_lt.mpr hemax)]


/-! ### Rounding always produces a well-formed, non-NaN double -/
theorem roundDouble_wf (q : ℚ) : (roundDouble q).wf := by
  by_cases hq : q = 0
  · rw [roundDouble, if_pos hq]
    decide
  · have haq : 0 < |q| := abs_pos.mpr hq
    obtain ⟨hz1, hz2⟩ := ilog2_spec |q| haq
    rw [roundDouble, if_neg hq]
    dsimp only
    set z := ilog2 |q| with hzdef
    set e0 := max emin (z - 52) with he0def
    have he0l : emin ≤ e0 := le_max_left _ _
    have hz52 : z - 52 ≤ e0 := le_max_right _ _
    have h2e0 : (0 : ℚ) < (2 : ℚ) ^ e0 := zpow_pos (by norm_num) e0
    have hx_lt : |q| / (2 : ℚ) ^ e0 < (2 : ℚ) ^ (53 : ℕ) := by
      rw [div_lt_iff₀ h2e0]
      have hpow : (2 : ℚ) ^ (53 : ℕ) * (2 : ℚ) ^ e0 = (2 : ℚ) ^ (e0 + 53) := by
        rw [zpow_add₀ (by norm_num : (2 : ℚ) ≠ 0)]
        rw [← zpow_natCast (2 : ℚ) 53]
        ring
      rw [hpow]
      calc |q| < (2 : ℚ) ^ (z + 1) := hz2
      _ ≤ (2 : ℚ) ^ (e0 + 53) := zpow_le_zpow_right₀ (by norm_num) (by omega)
    have hfl_lt : ⌊|q| / (2 : ℚ) ^ e0⌋ < 2 ^ 53 := by
      rw [Int.floor_lt]
      exact_mod_cast hx_lt
    have hr_le : roundNEInt (|q| / (2 : ℚ) ^ e0) ≤ 2 ^ 53 := by
      have := roundNEInt_le_floor_add_one (|q| / (2 : ℚ) ^ e0)
      omega
    set r := roundNEInt (|q| / (2 : ℚ) ^ e0) with hrdef
    set n0 := r.toNat with hn0def
    have hn0_le : n0 ≤ 2 ^ 53 := by omega
    by_cases h53 : n0 = 2 ^ 53
    · simp only [if_pos h53]
      by_cases hov : emaxLsb < e0 + 1
      · rw [if_pos hov]
        exact trivial
      · rw [if_neg hov]
        refine ⟨by norm_num, by omega, by omega, Or.inr (le_refl _)⟩
    · simp only [if_neg h53]
      by_cases hov : emaxLsb < e0
      · rw [if_pos hov]
        exact trivial
      · rw [if_neg hov]
        refine ⟨by omega, he0l, by omega, ?_⟩
        by_cases hsub : e0 = emin
        · exact Or.inl hsub
        · refine Or.inr ?_
          have he0z : e0 = z - 52 := by
            rcases max_choice emin (z - 52) with hc | hc
            · rw [he0def] at hsub; exact absurd hc hsub
            · rw [he0def]; exact hc
          have hx_ge : (2 : ℚ) ^ (52 : ℕ) ≤ |q| / (2 : ℚ) ^ e0 := by
            rw [le_div_iff₀ h2e0]
            have hpow : (2 : ℚ) ^ (52 : ℕ) * (2 : ℚ) ^ e0 = (2 : ℚ) ^ (e0 + 52) := by
              rw [zpow_add₀ (by norm_num : (2 : ℚ) ≠ 0)]
              rw [← zpow_natCast (2 : ℚ) 52]
              ring
            rw [hpow]
            calc (2 : ℚ) ^ (e0 + 52) = (2 : ℚ) ^ z := by rw [he0z]; ring_nf
            _ ≤ |q| := hz1
          have hfl_ge : (2 ^ 52 : Int) ≤ ⌊|q| / (2 : ℚ) ^ e0⌋ := by
            rw [Int.le_floor]
            exact_mod_cast hx_ge
          have hr_ge : (2 ^ 52 : Int) ≤ r := le_trans hfl_ge (floor_le_roundNEInt _)
          omega

theorem roundDouble_ne_nan (q : ℚ) : roundDouble q ≠ .nan := by
  unfold roundDouble
  dsimp only
  split_ifs <;> simp


/-! ### Addition: commutativity, well-formedness, NaN-freedom on finite operands -/

theorem Double.add_comm (x y : Double) : x.add y = y.add x := by
  cases x <;> cases y <;> simp only [Double.add] <;> try rfl
  · rename_i b1 b2
    by_cases h : b1 = b2
    · subst h; simp
    · rw [if_neg h, if_neg (fun hc => h hc.symm)]
  · rename_i n1 m1 e1 n2 m2 e2
    have hsum : valF n2 m2 e2 + valF n1 m1 e1 = valF n1 m1 e1 + valF n2 m2 e2 := by
      ring
    rw [hsum, Bool.and_comm n2 n1]

theorem Double.add_wf (x y : Double) : (x.add y).wf := by
  cases x <;> cases y <;> simp only [Double.add] <;> try exact trivial
  · rename_i b1 b2
    by_cases h : b1 = b2
    · rw [if_pos h]; exact trivial
    · rw [if_neg h]; exact trivial
  · rename_i n1 m1 e1 n2 m2 e2
    split_ifs with h
    · exact ⟨by norm_num, le_refl _, by decide, Or.inl rfl⟩
    · exact roundDouble_wf _

theorem Double.add_ne_nan {x y : Double} (hx : x.isFinite = true)
    (hy : y.isFinite = true) : x.add y ≠ .nan := by
  cases x <;> cases y <;>
    simp only [Double.isFinite, Bool.false_eq_true] at hx hy
  rename_i n1 m1 e1 n2 m2 e2
  simp only [Double.add]
  split_ifs
  · simp
  · exact roundDouble_ne_nan _

/-! ### Decimal digit strings: rendering and reading back -/

theorem natDigitsAux_val : ∀ f n, n ≤ f → digitsVal (natDigitsAux f n) = n := by
  intro f
  induction f with
  | zero => intro n h; simp only [natDigitsAux, digitsVal]; omega
  | succ f ih =>
    intro n h
    by_cases h0 : n = 0
    · simp [natDigitsAux, h0, digitsVal]
    · have hdiv : n / 10 ≤ f := by
        have := Nat.div_lt_self (Nat.pos_of_ne_zero h0) (by omega : 1 < 10)
        omega
      simp only [natDigitsAux, if_neg h0, digitsVal, ih (n / 10) hdiv]
      omega

theorem natDigitsAux_lt : ∀ f n, ∀ d ∈ natDigitsAux f n, d < 10 := by
  intro f
  induction f with
  | zero => intro n d hd; simp [natDigitsAux] at hd
  | succ f ih =>
    intro n d hd
    by_cases h0 : n = 0
    · simp [natDigitsAux, h0] at hd
    · simp only [natDigitsAux, if_neg h0, List.mem_cons] at hd
      rcases hd with hd | hd
      · omega
      · exact ih _ _ hd

theorem natDigitsAux_ne_nil (f n : Nat) (h0 : 0 < n) (hf : n ≤ f) :
    natDigitsAux f n ≠ [] := by
  cases f with
  | zero => omega
  | succ f =>
    simp only [natDigitsAux, if_neg (by omega : ¬n = 0)]
    simp

theorem digitChar_facts : ∀ d, d < 10 →
    (digitChar d).isDigit = true ∧ charVal (digitChar d) = d ∧
    isPyWS (digitChar d) = false ∧ digitChar d ≠ '_' ∧ digitChar d ≠ 'e' ∧
    digitChar d ≠ 'E' ∧ digitChar d ≠ '.' ∧ digitChar d ≠ '-' ∧
    digitChar d ≠ '+' := by
  intro d hd
  interval_cases d <;> exact ⟨by decide, by decide, by decide, by decide, by decide,
    by decide, by decide, by decide, by decide⟩

theorem natChars_isDigit {n : Nat} : ∀ c ∈ natChars n, c.isDigit = true := by
  intro c hc
  simp only [natChars, List.mem_reverse, List.mem_map] at hc
  obtain ⟨d, hd, rfl⟩ := hc
  exact (digitChar_facts d (natDigitsAux_lt _ _ d hd)).1

theorem natChars_ne_nil {n : Nat} (h : n ≠ 0) : natChars n ≠ [] := by
  unfold natChars
  intro hcon
  rw [List.reverse_eq_nil_iff, List.map_eq_nil_iff] at hcon
  exact natDigitsAux_ne_nil n n (Nat.pos_of_ne_zero h) le_rfl hcon

theorem foldl_digit_chars : ∀ (ds : List Nat), (∀ d ∈ ds, d < 10) → ∀ acc : Nat,
    List.foldl (fun a c => 10 * a + charVal c) acc (ds.map digitChar).reverse
      = acc * 10 ^ ds.length + digitsVal ds := by
  intro ds
  induction ds with
  | nil => intro _ acc; simp [digitsVal]
  | cons d t ih =>
    intro h acc
    have hd : d < 10 := h d (List.mem_cons_self d t)
    have ht : ∀ x ∈ t, x < 10 := fun x hx => h x (List.mem_cons_of_mem d hx)
    simp only [List.map_cons, List.reverse_cons, List.foldl_append, List.foldl_cons,
      List.foldl_nil, ih ht acc, digitsVal, List.length_cons]
    rw [(digitChar_facts d hd).2.1]
    have hpow : (10 : ℕ) ^ (t.length + 1) = 10 ^ t.length * 10 := pow_succ 10 _
    rw [hpow]
    ring

theorem digitsToNat_natChars (n : Nat) : digitsToNat (natChars n) = n := by
  unfold digitsToNat natChars
  rw [foldl_digit_chars _ (natDigitsAux_lt n n) 0]
  simp [natDigitsAux_val n n le_rfl]

/-! ### The tokenizer helpers on clean inputs -/

theorem takeDigits_append : ∀ (l r : List Char), (∀ c ∈ l, c.isDigit = true) →
    (∀ c, r.head? = some c → c.isDigit = false) →
    takeDigits (l ++ r) = (l, r) := by
  intro l
  induction l with
  | nil =>
    intro r _ hr
    cases r with
    | nil => rfl
    | cons c t =>
      simp only [List.nil_append, takeDigits, hr c rfl]
      simp
  | cons c l' ih =>
    intro r hl hr
    have hc : c.isDigit = true := hl c (List.mem_cons_self c l')
    have hl' : ∀ x ∈ l', x.isDigit = true := fun x hx => hl x (List.mem_cons_of_mem c hx)
    simp only [List.cons_append, takeDigits, hc, if_pos]
    rw [List.append_eq, ih r hl' hr]

theorem dropWhile_eq_self_of (p : Char → Bool) (cs : List Char)
    (h : ∀ c ∈ cs, p c = false) : cs.dropWhile p = cs := by
  cases cs with
  | nil => rfl
  | cons c t => simp [List.dropWhile, h c (List.mem_cons_self c t)]

theorem stripWS_eq_self (cs : List Char) (h : ∀ c ∈ cs, isPyWS c = false) :
    stripWS cs = cs := by
  unfold stripWS
  rw [dropWhile_eq_self_of isPyWS cs h]
  rw [dropWhile_eq_self_of isPyWS cs.reverse (fun c hc => h c (List.mem_reverse.mp hc))]
  exact List.reverse_reverse cs

theorem remU_eq_self : ∀ cs : List Char, '_' ∉ cs → remU cs = some cs := by
  intro cs h
  induction cs with
  | nil => rfl
  | cons c t ih =>
    have hc : c ≠ '_' := fun hcon => h (hcon ▸ List.mem_cons_self c t)
    cases t with
    | nil => simp [remU, hc]
    | cons c2 rest =>
      have hc2 : c2 ≠ '_' := fun hcon =>
        h (List.mem_cons_of_mem c (hcon ▸ List.mem_cons_self c2 rest))
      have ht : '_' ∉ c2 :: rest := fun hcon => h (List.mem_cons_of_mem c hcon)
      simp only [remU, if_neg hc, if_neg hc2, ih ht]
      rfl

theorem takeDigits_natChars (M : Nat) : takeDigits (natChars M) = (natChars M, []) := by
  have := takeDigits_append (natChars M) [] natChars_isDigit
    (by intro c hc; simp at hc)
  simpa using this

theorem takeDigits_natChars_append (M : Nat) (r : List Char)
    (hr : ∀ c, r.head? = some c → c.isDigit = false) :
    takeDigits (natChars M ++ r) = (natChars M, r) :=
  takeDigits_append (natChars M) r natChars_isDigit hr

theorem parseNumber_natChars (M : Nat) (hM : M ≠ 0) :
    parseNumber (natChars M) = some ((M : ℚ)) := by
  have h1 : takeDigits (natChars M) = (natChars M, []) := takeDigits_natChars M
  have hne : ¬(natChars M = [] ∧ ([] : List Char) = []) := fun ⟨h, _⟩ =>
    natChars_ne_nil hM h
  simp only [parseNumber, h1, List.head?_nil, reduceCtorEq, if_false]
  rw [if_neg (by simpa using hne)]
  simp only [decValue, List.append_nil, digitsToNat_natChars, List.length_nil,
    Nat.cast_zero, sub_zero]
  norm_num

theorem parseNumber_natChars_exp (M k : Nat) (hM : M ≠ 0) (hk : k ≠ 0) :
    parseNumber (natChars M ++ 'e' :: '-' :: natChars k)
      = some ((M : ℚ) * (10 : ℚ) ^ (-(k : Int))) := by
  have h1 : takeDigits (natChars M ++ 'e' :: '-' :: natChars k)
      = (natChars M, 'e' :: '-' :: natChars k) :=
    takeDigits_natChars_append M _ (by intro c hc; simp at hc; subst hc; decide)
  have h3 : takeDigits (natChars k) = (natChars k, []) := takeDigits_natChars k
  simp only [parseNumber, h1, List.head?_cons, Option.some.injEq, reduceCtorEq, if_false]
  rw [if_neg (by decide : ¬('e' = '.'))]
  dsimp only
  rw [if_neg (fun hcon => natChars_ne_nil hM hcon.1)]
  rw [if_pos (Or.inl rfl : 'e' = 'e' ∨ 'e' = 'E')]
  simp only [splitSign, ite_true, ite_false, if_pos rfl, h3]
  rw [if_neg (?_ : ¬(natChars k = [] ∨ ([] : List Char) ≠ []))]
  · simp only [decValue, List.append_nil, digitsToNat_natChars, List.length_nil,
      Nat.cast_zero, sub_zero, if_pos rfl]
  · rintro (hcon | hcon)
    · exact natChars_ne_nil hk hcon
    · exact hcon rfl

theorem parseNumber_exactDec (m : Nat) (e : Int) (hm : m ≠ 0) :
    parseNumber (exactDec m e) = some ((m : ℚ) * (2 : ℚ) ^ e) := by
  by_cases he : 0 ≤ e
  · have hM : m * 2 ^ e.toNat ≠ 0 := by positivity
    rw [exactDec, if_pos he, parseNumber_natChars _ hM]
    congr 1
    push_cast
    rw [← zpow_natCast (2 : ℚ) e.toNat, Int.toNat_of_nonneg he]
  · have hk : (-e).toNat ≠ 0 := by omega
    have hM : m * 5 ^ (-e).toNat ≠ 0 := by positivity
    rw [exactDec, if_neg he, parseNumber_natChars_exp _ _ hM hk]
    congr 1
    have hek : ((-e).toNat : Int) = -e := Int.toNat_of_nonneg (by omega)
    push_cast
    rw [hek, neg_neg]
    have h5 : ((5 : ℚ) ^ (-e).toNat : ℚ) = (5 : ℚ) ^ (-e) := by
      rw [← zpow_natCast (5 : ℚ) (-e).toNat, hek]
    rw [h5, show (10 : ℚ) = 2 * 5 by norm_num, mul_zpow]
    have hcomb : (5 : ℚ) ^ (-e) * (5 : ℚ) ^ e = 1 := by
      rw [← zpow_add₀ (by norm_num : (5 : ℚ) ≠ 0)]
      simp
    calc (m : ℚ) * 5 ^ (-e) * ((2 : ℚ) ^ e * 5 ^ e)
        = (m : ℚ) * (2 : ℚ) ^ e * ((5 : ℚ) ^ (-e) * 5 ^ e) := by ring
    _ = (m : ℚ) * (2 : ℚ) ^ e := by rw [hcomb, mul_one]

theorem exactDec_chars (m : Nat) (e : Int) :
    ∀ c ∈ exactDec m e, c.isDigit = true ∨ c = 'e' ∨ c = '-' := by
  intro c hc
  unfold exactDec at hc
  split_ifs at hc
  · exact Or.inl (natChars_isDigit c hc)
  · simp only [List.mem_append, List.mem_cons] at hc
    rcases hc with hc | hc | hc | hc
    · exact Or.inl (natChars_isDigit c hc)
    · exact Or.inr (Or.inl hc)
    · exact Or.inr (Or.inr hc)
    · exact Or.inl (natChars_isDigit c hc)

theorem exactDec_head (m : Nat) (e : Int) (hm : m ≠ 0) :
    ∃ c t, exactDec m e = c :: t ∧ c.isDigit = true := by
  unfold exactDec
  split_ifs with he
  · have hM : m * 2 ^ e.toNat ≠ 0 := by positivity
    obtain ⟨c, t, hct⟩ := List.exists_cons_of_ne_nil (natChars_ne_nil hM)
    exact ⟨c, t, hct, natChars_isDigit c (hct ▸ List.mem_cons_self c t)⟩
  · have hM : m * 5 ^ (-e).toNat ≠ 0 := by positivity
    obtain ⟨c, t, hct⟩ := List.exists_cons_of_ne_nil (natChars_ne_nil hM)
    refine ⟨c, t ++ 'e' :: '-' :: natChars (-e).toNat, by rw [hct]; rfl, ?_⟩
    exact natChars_isDigit c (hct ▸ List.mem_cons_self c t)

theorem splitSign_of_digit (c : Char) (t : List Char) (hc : c.isDigit = true) :
    splitSign (c :: t) = (false, c :: t) := by
  have h1 : c ≠ '-' := fun hcon => by subst hcon; exact absurd hc (by decide)
  have h2 : c ≠ '+' := fun hcon => by subst hcon; exact absurd hc (by decide)
  simp [splitSign, h1, h2]

theorem isPyWS_eq_false_of_isDigit (c : Char) (h : c.isDigit = true) :
    isPyWS c = false := by
  have h1 : c ≠ ' ' := fun hc => by subst hc; exact absurd h (by decide)
  have h2 : c ≠ '\t' := fun hc => by subst hc; exact absurd h (by decide)
  have h3 : c ≠ '\n' := fun hc => by subst hc; exact absurd h (by decide)
  have h4 : c ≠ '\x0d' := fun hc => by subst hc; exact absurd h (by decide)
  have h5 : c ≠ '\x0b' := fun hc => by subst hc; exact absurd h (by decide)
  have h6 : c ≠ '\x0c' := fun hc => by subst hc; exact absurd h (by decide)
  simp [isPyWS, h1, h2, h3, h4, h5, h6]

theorem pyFloat_exactDec (neg : Bool) (m : Nat) (e : Int) (hm : m ≠ 0)
    (hlt : m < 2 ^ 53) (hemin : emin ≤ e) (hemax : e ≤ emaxLsb)
    (hnorm : e = emin ∨ 2 ^ 52 ≤ m) :
    pyFloat (String.mk ((if neg then ['-'] else []) ++ exactDec m e))
      = some (.finite neg m e) := by
  have hWS : ∀ c ∈ (if neg then ['-'] else []) ++ exactDec m e, isPyWS c = false := by
    intro c hc
    rcases List.mem_append.mp hc with hc | hc
    · cases neg <;> simp at hc
      subst hc; decide
    · rcases exactDec_chars m e c hc with h | h | h
      · exact isPyWS_eq_false_of_isDigit c h
      · subst h; decide
      · subst h; decide
  have hU : '_' ∉ (if neg then ['-'] else []) ++ exactDec m e := by
    intro hc
    rcases List.mem_append.mp hc with hc | hc
    · cases neg <;> simp at hc
    · rcases exactDec_chars m e '_' hc with h | h | h
      · exact absurd h (by decide)
      · exact absurd h (by decide)
      · exact absurd h (by decide)
  obtain ⟨hd, tl, hdt, hdig⟩ := exactDec_head m e hm
  have hsplit : splitSign ((if neg then ['-'] else []) ++ exactDec m e)
      = (neg, exactDec m e) := by
    cases neg
    · simp only [Bool.false_eq_true, if_false, List.nil_append]
      rw [hdt, splitSign_of_digit hd tl hdig, ← hdt]
    · simp only [if_true, List.cons_append, List.nil_append]
      simp [splitSign]
  have hval : parseNumber (exactDec m e) = some ((m : ℚ) * (2 : ℚ) ^ e) :=
    parseNumber_exactDec m e hm
  have hround : roundDouble ((m : ℚ) * (2 : ℚ) ^ e) = .finite false m e :=
    roundDouble_valF m e hm hlt hemin hemax hnorm
  show pyFloat ⟨(if neg then ['-'] else []) ++ exactDec m e⟩ = _
  rw [pyFloat]
  simp only [stripWS_eq_self _ hWS, remU_eq_self _ hU, hsplit, hval, hround]
  cases neg
  · rfl
  · rfl

unseal Rat.mul Rat.add Rat.sub Rat.inv Rat.ofScientific

theorem pyFloat_reprFloat (d : Double) (hwf : d.wf) (hnan : d ≠ .nan) :
    pyFloat (reprFloat d) = some d := by
  cases d with
  | nan => exact absurd rfl hnan
  | inf b => cases b <;> decide
  | finite neg m e =>
    obtain ⟨hlt, hemin, hemax, hnorm⟩ := hwf
    by_cases hm : m = 0
    · subst hm
      have he : e = emin := by
        rcases hnorm with h | h
        · exact h
        · exact absurd h (by decide)
      subst he
      cases neg <;> decide
    · simp only [reprFloat, if_neg hm]
      cases hfind : List.find?
          (fun s => pyFloat (String.mk s) == some (.finite neg m e))
          ((List.range 17).map fun i =>
            (if neg then ['-'] else []) ++ fmtSig m e (i + 1)) with
      | some s =>
        have hp := List.find?_some hfind
        have hp' : (pyFloat (String.mk s) == some (Double.finite neg m e)) = true := hp
        show pyFloat (String.mk s) = some (Double.finite neg m e)
        exact eq_of_beq hp'
      | none => exact pyFloat_exactDec neg m e hm hlt hemin hemax hnorm

/-! ### Every parsed double is well-formed -/

theorem applySign_wf (b : Bool) (d : Double) (h : d.wf) : (applySign b d).wf := by
  cases d <;> cases b <;>
    simp only [applySign, negD, Double.wf, if_true, if_false] at h ⊢ <;>
    exact h

theorem pyFloat_wf (s : String) (d : Double) (h : pyFloat s = some d) : d.wf := by
  rw [pyFloat] at h
  cases hrem : remU (stripWS s.data) with
  | none => rw [hrem] at h; exact absurd h (by simp)
  | some cs1 =>
    rw [hrem] at h
    dsimp only at h
    cases hpn : parseNumber (splitSign cs1).2 with
    | some q =>
      rw [hpn] at h
      injection h with h'
      rw [← h']
      exact applySign_wf _ _ (roundDouble_wf q)
    | none =>
      rw [hpn] at h
      split_ifs at h <;> injection h with h' <;> rw [← h'] <;> exact trivial

/-! ### The numeric-result line never coincides with either message -/

theorem ok_append {l r : List Char} (hl : ∀ c ∈ l, okChar c)
    (hr : ∀ c ∈ r, okChar c) : ∀ c ∈ l ++ r, okChar c := by
  intro c hc
  rcases List.mem_append.mp hc with h | h
  · exact hl c h
  · exact hr c h

theorem ok_cons {x : Char} {l : List Char} (hx : okChar x)
    (hl : ∀ c ∈ l, okChar c) : ∀ c ∈ x :: l, okChar c := by
  intro c hc
  rcases List.mem_cons.mp hc with h | h
  · exact h ▸ hx
  · exact hl c h

theorem ok_nil : ∀ c ∈ ([] : List Char), okChar c := by
  intro c hc
  simp at hc

theorem ok_replicate {x : Char} (hx : okChar x) (n : Nat) :
    ∀ c ∈ List.replicate n x, okChar c := by
  intro c hc
  rw [List.eq_of_mem_replicate hc]
  exact hx

theorem ok_take {l : List Char} (hl : ∀ c ∈ l, okChar c) (n : Nat) :
    ∀ c ∈ l.take n, okChar c :=
  fun c hc => hl c (List.take_subset _ _ hc)

theorem ok_drop {l : List Char} (hl : ∀ c ∈ l, okChar c) (n : Nat) :
    ∀ c ∈ l.drop n, okChar c :=
  fun c hc => hl c (List.drop_subset _ _ hc)

theorem ok_natChars (n : Nat) : ∀ c ∈ natChars n, okChar c :=
  fun c hc => Or.inl (natChars_isDigit c hc)

theorem fixedNotation_ok (ds : List Char) (d10 : Int)
    (hds : ∀ c ∈ ds, okChar c) : ∀ c ∈ fixedNotation ds d10, okChar c := by
  unfold fixedNotation
  dsimp only
  split_ifs
  · exact ok_append (ok_append hds (ok_replicate (show okChar '0' by decide) _))
      (ok_cons (show okChar '.' by decide)
        (ok_cons (show okChar '0' by decide) ok_nil))
  · exact ok_append (ok_take hds _)
      (ok_cons (show okChar '.' by decide) (ok_drop hds _))
  · exact ok_cons (show okChar '0' by decide) (ok_cons (show okChar '.' by decide)
      (ok_append (ok_replicate (show okChar '0' by decide) _) hds))

theorem sciNotation_ok (ds : List Char) (d10 : Int)
    (hds : ∀ c ∈ ds, okChar c) : ∀ c ∈ sciNotation ds d10, okChar c := by
  unfold sciNotation
  dsimp only
  refine ok_append (ok_append (ok_take hds _) ?_)
    (ok_cons (show okChar 'e' by decide) ?_)
  · cases hdrop : ds.drop 1 with
    | nil => exact ok_nil
    | cons x t =>
      exact ok_cons (show okChar '.' by decide) (hdrop ▸ ok_drop hds 1)
  · refine ok_cons ?_ ?_
    · split_ifs <;> decide
    · split_ifs
      · exact ok_cons (show okChar '0' by decide)
          (ok_append (ok_natChars _) (ok_natChars _))
      · exact ok_append (ok_natChars _) (ok_natChars _)

theorem fmtSig_ok (m : Nat) (e : Int) (p : Nat) : ∀ c ∈ fmtSig m e p, okChar c := by
  unfold fmtSig
  dsimp only
  split_ifs
  all_goals
    first
    | exact fixedNotation_ok _ _ (ok_natChars _)
    | exact sciNotation_ok _ _ (ok_natChars _)

theorem exactDec_ok (m : Nat) (e : Int) : ∀ c ∈ exactDec m e, okChar c := by
  intro c hc
  rcases exactDec_chars m e c hc with h | h | h
  · exact Or.inl h
  · exact Or.inr (Or.inr (Or.inl h))
  · exact Or.inr (Or.inr (Or.inr (Or.inr (Or.inl h))))

theorem reprFloat_ok (d : Double) : ∀ c ∈ (reprFloat d).data, okChar c := by
  cases d with
  | nan => decide
  | inf b => cases b <;> decide
  | finite neg m e =>
    by_cases hm : m = 0
    · simp only [reprFloat, if_pos hm]
      cases neg <;> decide
    · simp only [reprFloat, if_neg hm]
      cases hfind : List.find?
          (fun s => pyFloat (String.mk s) == some (.finite neg m e))
          ((List.range 17).map fun i =>
            (if neg then ['-'] else []) ++ fmtSig m e (i + 1)) with
      | some s =>
        have hmem := List.mem_of_find?_eq_some hfind
        simp only [List.mem_map, List.mem_range] at hmem
        obtain ⟨i, _, rfl⟩ := hmem
        show ∀ c ∈ (if neg then ['-'] else []) ++ fmtSig m e (i + 1), okChar c
        refine ok_append ?_ (fmtSig_ok m e (i + 1))
        cases neg
        · exact ok_nil
        · exact ok_cons (by decide) ok_nil
      | none =>
        show ∀ c ∈ (if neg then ['-'] else []) ++ exactDec m e, okChar c
        refine ok_append ?_ (exactDec_ok m e)
        cases neg
        · exact ok_nil
        · exact ok_cons (by decide) ok_nil

theorem reprFloat_ne_usageMsg (d : Double) : reprFloat d ≠ usageMsg := by
  intro h
  have hU : 'U' ∈ usageMsg.data := by decide
  rw [← h] at hU
  exact absurd (reprFloat_ok d 'U' hU) (by decide)

theorem reprFloat_ne_errMsg (d : Double) : reprFloat d ≠ errMsg := by
  intro h
  have hE : 'E' ∈ errMsg.data := by decide
  rw [← h] at hE
  exact absurd (reprFloat_ok d 'E' hE) (by decide)

/-! ### Shared facts about `main` -/

theorem main_usage (prog : String) (args : List String) (h : args.length ≠ 2) :
    SumNumbers.main (prog :: args) = ⟨[usageMsg], 1⟩ := by
  rcases args with _ | ⟨a, _ | ⟨b, _ | ⟨c, t⟩⟩⟩
  · rfl
  · rfl
  · simp at h
  · rfl

theorem main_err (prog a b : String) (h : pyFloat a = none ∨ pyFloat b = none) :
    SumNumbers.main [prog, a, b] = ⟨[errMsg], 1⟩ := by
  rcases h with h | h
  · cases hpb : pyFloat b <;> simp [SumNumbers.main, h, hpb]
  · cases hpa : pyFloat a <;> simp [SumNumbers.main, h, hpa]

theorem main_ok (prog a b : String) (x y : Double) (hx : pyFloat a = some x)
    (hy : pyFloat b = some y) :
    SumNumbers.main [prog, a, b] = ⟨[reprFloat (x.add y)], 0⟩ := by
  simp [SumNumbers.main, hx, hy]

/-! ### The claims -/

/-- C1: for every pair of finite floating-point-parseable strings `a` and
`b`, invoking the program with exactly the argument list `[a, b]` exits
with status 0 and prints a string that parses back to the IEEE-754 double
value `float(a) + float(b)`. -/
theorem spec_c1_sum_roundtrip (prog a b : String) (x y : Double)
    (hx : pyFloat a = some x) (hy : pyFloat b = some y)
    (hfx : x.isFinite = true) (hfy : y.isFinite = true) :
    (SumNumbers.main [prog, a, b]).exitCode = 0 ∧
    ∃ out, (SumNumbers.main [prog, a, b]).stdout = [out] ∧
      pyFloat out = some (x.add y) := by
  rw [main_ok prog a b x y hx hy]
  exact ⟨rfl, reprFloat (x.add y), rfl,
    pyFloat_reprFloat _ (Double.add_wf x y) (Double.add_ne_nan hfx hfy)⟩

theorem spec_c1_witness :
    pyFloat "3" = some (.finite false 6755399441055744 (-51)) ∧
    pyFloat "5" = some (.finite false 5629499534213120 (-50)) ∧
    (Double.finite false 6755399441055744 (-51)).isFinite = true ∧
    (Double.finite false 5629499534213120 (-50)).isFinite = true ∧
    ((SumNumbers.main ["sum_numbers.py", "3", "5"]).exitCode = 0 ∧
      ∃ out, (SumNumbers.main ["sum_numbers.py", "3", "5"]).stdout = [out] ∧
        pyFloat out = some ((Double.finite false 6755399441055744 (-51)).add
          (.finite false 5629499534213120 (-50)))) :=
  ⟨by decide, by decide, by decide, by decide,
    spec_c1_sum_roundtrip "sum_numbers.py" "3" "5" _ _ (by decide) (by decide)
      (by decide) (by decide)⟩

/-- C2 (counterexample): the argument `"inf"` is not parseable under the
spec's lexical float rules, yet the program invoked with exactly
`["inf", "3"]` exits with status 0 (printing `inf`) rather than exiting
with status 1 and the numeric-error message. -/
theorem spec_c2_counterexample :
    specLexFloat "inf" = false ∧
    SumNumbers.main ["sum_numbers.py", "inf", "3"] = ⟨["inf"], 0⟩ := by
  constructor
  · decide
  · decide

/-- C2 (amended): for every invocation with exactly two arguments where at
least one argument is rejected by Python's `float` conversion (which
accepts the spec's lexical forms and additionally surrounding whitespace,
underscores between digits, and `inf`/`infinity`/`nan` spellings), the
program exits with status 1 and prints the literal line
`Error: Both arguments must be numbers.`. -/
theorem spec_c2_amended (prog a b : String)
    (h : pyFloat a = none ∨ pyFloat b = none) :
    SumNumbers.main [prog, a, b] = ⟨[errMsg], 1⟩ :=
  main_err prog a b h

theorem spec_c2_witness :
    (pyFloat "abc" = none ∨ pyFloat "3" = none) ∧
    SumNumbers.main ["sum_numbers.py", "abc", "3"] = ⟨[errMsg], 1⟩ :=
  ⟨Or.inl (by decide),
    spec_c2_amended "sum_numbers.py" "abc" "3" (Or.inl (by decide))⟩

/-- C3: for every invocation whose argument list (excluding the program
name) has length zero, one, or three or more — that is, any length other
than two — regardless of the arguments' content, the program exits with
status 1 and prints the usage message. -/
theorem spec_c3_usage_on_bad_argc (prog : String) (args : List String)
    (h : args.length ≠ 2) :
    SumNumbers.main (prog :: args) = ⟨[usageMsg], 1⟩ :=
  main_usage prog args h

theorem spec_c3_witness :
    (["1"] : List String).length ≠ 2 ∧
    SumNumbers.main ("sum_numbers.py" :: ["1"]) = ⟨[usageMsg], 1⟩ :=
  ⟨by decide, spec_c3_usage_on_bad_argc "sum_numbers.py" ["1"] (by decide)⟩

/-- C4 (counterexample): when the argument-count check fails, the message
actually printed is the fixed literal
`Usage: python sum_numbers.py <number1> <number2>`, which is not
`Usage: <program> <number1> <number2>` with `<program>` replaced by the
program's own invocation name: for the invocation name `sum_numbers.py`
the two differ. -/
theorem spec_c4_counterexample :
    SumNumbers.main ["sum_numbers.py"] = ⟨[usageMsg], 1⟩ ∧
    usageMsg ≠ specUsage "sum_numbers.py" := by
  constructor
  · rfl
  · decide

/-- C4 (amended): whenever the argument-count check fails, the usage
message written to standard output is exactly the fixed literal
`Usage: python sum_numbers.py <number1> <number2>`, independent of the
program's invocation name. -/
theorem spec_c4_amended (prog : String) (args : List String)
    (h : args.length ≠ 2) :
    (SumNumbers.main (prog :: args)).stdout
      = ["Usage: python sum_numbers.py <number1> <number2>"] := by
  rw [main_usage prog args h]
  rfl

theorem spec_c4_witness :
    ([] : List String).length ≠ 2 ∧
    (SumNumbers.main ("prog" :: ([] : List String))).stdout
      = ["Usage: python sum_numbers.py <number1> <number2>"] :=
  ⟨by decide, spec_c4_amended "prog" [] (by decide)⟩

/-- C5: every invocation writes exactly one line to standard output, and
that line is exactly one of three mutually exclusive possibilities: the
usage message, the numeric-error message, or a numeric-result line (the
rendering of a double, which never coincides with either message). -/
theorem spec_c5_single_line (argv : List String) :
    ∃ line, (SumNumbers.main argv).stdout = [line] ∧
      ((line = usageMsg ∧ line ≠ errMsg ∧ ¬∃ d, line = reprFloat d) ∨
       (line = errMsg ∧ line ≠ usageMsg ∧ ¬∃ d, line = reprFloat d) ∨
       ((∃ d, line = reprFloat d) ∧ line ≠ usageMsg ∧ line ≠ errMsg)) := by
  have hUE : usageMsg ≠ errMsg := by decide
  match argv with
  | [] =>
    refine ⟨usageMsg, rfl, Or.inl ⟨rfl, hUE, ?_⟩⟩
    rintro ⟨d, hd⟩
    exact reprFloat_ne_usageMsg d hd.symm
  | [_] =>
    refine ⟨usageMsg, rfl, Or.inl ⟨rfl, hUE, ?_⟩⟩
    rintro ⟨d, hd⟩
    exact reprFloat_ne_usageMsg d hd.symm
  | [p, a, b] =>
    cases hpa : pyFloat a with
    | none =>
      refine ⟨errMsg, ?_, Or.inr (Or.inl ⟨rfl, hUE.symm, ?_⟩)⟩
      · rw [main_err p a b (Or.inl hpa)]
      · rintro ⟨d, hd⟩
        exact reprFloat_ne_errMsg d hd.symm
    | some x =>
      cases hpb : pyFloat b with
      | none =>
        refine ⟨errMsg, ?_, Or.inr (Or.inl ⟨rfl, hUE.symm, ?_⟩)⟩
        · rw [main_err p a b (Or.inr hpb)]
        · rintro ⟨d, hd⟩
          exact reprFloat_ne_errMsg d hd.symm
      | some y =>
        refine ⟨reprFloat (x.add y), ?_, Or.inr (Or.inr ⟨⟨x.add y, rfl⟩,
          reprFloat_ne_usageMsg _, reprFloat_ne_errMsg _⟩)⟩
        rw [main_ok p a b x y hpa hpb]
  | _ :: _ :: [] =>
    refine ⟨usageMsg, rfl, Or.inl ⟨rfl, hUE, ?_⟩⟩
    rintro ⟨d, hd⟩
    exact reprFloat_ne_usageMsg d hd.symm
  | _ :: _ :: _ :: _ :: _ =>
    refine ⟨usageMsg, rfl, Or.inl ⟨rfl, hUE, ?_⟩⟩
    rintro ⟨d, hd⟩
    exact reprFloat_ne_usageMsg d hd.symm

/-- C6: for every pair of numeric (Python-float-parseable) argument
strings `a` and `b`, invoking the program with `[a, b]` and with `[b, a]`
yields the same printed result. -/
theorem spec_c6_commutative (prog a b : String) (x y : Double)
    (hx : pyFloat a = some x) (hy : pyFloat b = some y) :
    (SumNumbers.main [prog, a, b]).stdout
      = (SumNumbers.main [prog, b, a]).stdout := by
  rw [main_ok prog a b x y hx hy, main_ok prog b a y x hy hx,
    Double.add_comm x y]

theorem spec_c6_witness :
    pyFloat "2.5" = some (.finite false 5629499534213120 (-51)) ∧
    pyFloat "-1.5" = some (.finite true 6755399441055744 (-52)) ∧
    (SumNumbers.main ["sum_numbers.py", "2.5", "-1.5"]).stdout
      = (SumNumbers.main ["sum_numbers.py", "-1.5", "2.5"]).stdout :=
  ⟨by decide, by decide,
    spec_c6_commutative "sum_numbers.py" "2.5" "-1.5"
      (.finite false 5629499534213120 (-51)) (.finite true 6755399441055744 (-52))
      (by decide) (by decide)⟩

/-- C7: invoking the program with `["3", "5"]` exits with status 0 and
prints `8.0` (Python's default float rendering of 8), and invoking it with
`["2.5", "-1.5"]` exits with status 0 and prints `1.0`. -/
theorem spec_c7_concrete :
    SumNumbers.main ["sum_numbers.py", "3", "5"] = ⟨["8.0"], 0⟩ ∧
    SumNumbers.main ["sum_numbers.py", "2.5", "-1.5"] = ⟨["1.0"], 0⟩ := by
  constructor
  · decide
  · decide

/-- C8: there are two-argument invocations whose arguments do not satisfy
the spec's lexical float rules — `["inf", "nan"]` and `[" 3 ", "5"]` —
that nevertheless succeed with exit status 0, because Python's `float`
additionally accepts infinity/NaN spellings and surrounding whitespace. -/
theorem spec_c8_python_superset :
    specLexFloat "inf" = false ∧ specLexFloat "nan" = false ∧
    specLexFloat " 3 " = false ∧
    (SumNumbers.main ["sum_numbers.py", "inf", "nan"]).exitCode = 0 ∧
    (SumNumbers.main ["sum_numbers.py", " 3 ", "5"]).exitCode = 0 := by
  refine ⟨by decide, by decide, by decide, ?_, ?_⟩
  · decide
  · decide

/-- C9: the program is deterministic — any two runs on the same argument
list produce identical standard output and identical exit status.  In the
embedding a run's outcome is the value of the pure function
`SumNumbers.main`, so two outcomes of the same argument list coincide. -/
theorem spec_c9_deterministic (argv : List String) (r1 r2 : RunResult)
    (h1 : SumNumbers.main argv = r1) (h2 : SumNumbers.main argv = r2) :
    r1 = r2 := by
  rw [← h1, ← h2]

theorem spec_c9_witness :
    SumNumbers.main [] = ⟨[usageMsg], 1⟩ ∧
    (⟨[usageMsg], 1⟩ : RunResult) = ⟨[usageMsg], 1⟩ :=
  ⟨rfl, spec_c9_deterministic [] ⟨[usageMsg], 1⟩ ⟨[usageMsg], 1⟩ rfl rfl⟩

/-- C10: the program terminates on every argument list — every invocation
reaches one of the two error exits or the single success print, producing
exactly one output line and exit status 0 or 1. -/
theorem spec_c10_terminates (argv : List String) :
    ∃ line code, SumNumbers.main argv = ⟨[line], code⟩ ∧
      (code = 0 ∨ code = 1) := by
  match argv with
  | [] => exact ⟨usageMsg, 1, rfl, Or.inr rfl⟩
  | [_] => exact ⟨usageMsg, 1, rfl, Or.inr rfl⟩
  | [p, a, b] =>
    cases hpa : pyFloat a with
    | none => exact ⟨errMsg, 1, main_err p a b (Or.inl hpa), Or.inr rfl⟩
    | some x =>
      cases hpb : pyFloat b with
      | none => exact ⟨errMsg, 1, main_err p a b (Or.inr hpb), Or.inr rfl⟩
      | some y => exact ⟨reprFloat (x.add y), 0, main_ok p a b x y hpa hpb, Or.inl rfl⟩
  | _ :: _ :: [] => exact ⟨usageMsg, 1, rfl, Or.inr rfl⟩
  | _ :: _ :: _ :: _ :: _ => exact ⟨usageMsg, 1, rfl, Or.inr rfl⟩
